import Mathlib

/-!
# Verification of the VeCode agent's sandboxed tool-execution core

A shallow embedding, in Lean 4, of the security- and correctness-critical
parts of the VeCode agent repository:

* the path jail (`src/agent/utils.py`, `jail_path`);
* glob-based allow/deny filtering (`src/agent/utils.py`, `match_any`);
* the filesystem service (`src/agent/tools/fs.py`: `tree`, `read`, `write`,
  `delete`) with its atomic-write and backup primitives
  (`src/agent/utils.py`: `atomic_write`, `backup_file`);
* the diff engine (`src/agent/tools/edit.py`: `EditTool._patch`,
  `EditTool.apply_unified_diff`);
* the shell-session manager (`src/agent/tools/terminal.py`: `ShellSession`,
  `TerminalTool`).

Python strings are modelled as `List Char` (sequences of Unicode code
points, exactly Python's `str` model); raw file bytes are `List Nat`.
Filesystem and session state is passed explicitly.  All definitions are
executable, so concrete counterexamples evaluate by `decide`/`rfl`/`simp`.
-/

namespace VeCode

/-! ## Paths and the jail (`src/agent/utils.py`, `jail_path`)

An absolute, canonical path is a list of components (each a `List Char`
holding no separator).  `pathStr` renders it the way `str(pathlib.Path)`
renders an absolute path.  `resolveComponents` models
`(root / p).resolve()` for an already-resolved `root` and a relative `p`
in a symlink-free directory tree: `.` and empty components vanish, `..`
pops a component (staying put at the filesystem root), everything else is
appended. -/

/-- An absolute path as a list of components. -/
abbrev PathC := List (List Char)

/-- Render the components of `p` after a leading separator:
`["proj","x"] ↦ "/proj/x"` as a character list. -/
def renderPath : PathC → List Char
  | [] => []
  | c :: rest => '/' :: c ++ renderPath rest

/-- `str(p)` for an absolute `pathlib.Path`: the filesystem root renders
as `"/"`, everything else as `/`-separated components. -/
def pathStr (p : PathC) : List Char :=
  if p = [] then ['/'] else renderPath p

/-- `(root / rel).resolve()` on a symlink-free tree: fold the relative
components over the (already canonical) root, handling `.`/`..`. -/
def resolveComponents (root : PathC) (rel : List (List Char)) : PathC :=
  rel.foldl
    (fun acc c =>
      if c = ['.'] ∨ c = [] then acc
      else if c = ['.', '.'] then acc.dropLast
      else acc ++ [c])
    root

/-- The error raised by the jail (`PermissionError("path escapes jail")`);
the spec calls this failure kind PathEscape. -/
inductive JailError where
  | pathEscape
deriving DecidableEq

/-- `jail_path(root, p)` from `src/agent/utils.py`: resolve `root / p`,
then test `str(pp).startswith(str(root))` — a *string*-prefix test on the
rendered paths — and raise `PermissionError` when it fails. -/
def jail_path (root : PathC) (rel : List (List Char)) : Except JailError PathC :=
  let pp := resolveComponents root rel
  if (pathStr root).isPrefixOf (pathStr pp) then .ok pp else .error .pathEscape

/-- True filesystem descendance: every component of `root`, in order, then
at least one more component. -/
def isTrueDescendant (root p : PathC) : Bool :=
  root.isPrefixOf p && !(root == p)

theorem renderPath_append (a b : PathC) :
    renderPath (a ++ b) = renderPath a ++ renderPath b := by
  induction a with
  | nil => simp [renderPath]
  | cons c rest ih => simp [renderPath, ih]

theorem pathStr_isPrefixOf_of_isPrefixOf {a p : PathC}
    (h : a.isPrefixOf p = true) :
    (pathStr a).isPrefixOf (pathStr p) = true := by
  rw [List.isPrefixOf_iff_prefix] at h ⊢
  obtain ⟨t, rfl⟩ := h
  by_cases ha : a = []
  · subst ha
    cases t with
    | nil => simp [pathStr]
    | cons c cs => simp [pathStr, renderPath]
  · have hap : a ++ t ≠ [] := fun hc => (by simp at hc; exact ha hc.1)
    simp only [pathStr, if_neg ha, if_neg hap, renderPath_append]
    exact ⟨renderPath t, rfl⟩

/-- C1 (counterexample): with project root `/proj`, the relative path
`../proj2` resolves to the sibling directory `/proj2`, which is *not* a
filesystem descendant of the root; yet `jail_path` accepts it instead of
failing with PathEscape, because `"/proj2".startswith("/proj")` holds.
This refutes the claim that the descendant test compares resolved path
components and rejects prefix-sharing siblings. -/
theorem claim1_counterexample :
    jail_path ["proj".toList] ["..".toList, "proj2".toList]
        = .ok ["proj2".toList]
      ∧ isTrueDescendant ["proj".toList] ["proj2".toList] = false := by
  constructor
  · rfl
  · rfl

/-- C1 (amended): `jail_path` fails with PathEscape exactly when the
*rendered string* of the resolved path does not have the root's rendered
string as a prefix.  Every true filesystem descendant of the root is
accepted, but the test is a string-prefix comparison, so sibling
directories whose rendered path extends the root's string (such as
`/proj2` under root `/proj`) are accepted as well rather than rejected. -/
theorem claim1_amended (root : PathC) (rel : List (List Char)) :
    (isTrueDescendant root (resolveComponents root rel) = true →
      jail_path root rel = .ok (resolveComponents root rel))
    ∧ (jail_path root rel = .error .pathEscape ↔
        (pathStr root).isPrefixOf (pathStr (resolveComponents root rel)) = false) := by
  constructor
  · intro h
    have h1 : root.isPrefixOf (resolveComponents root rel) = true := by
      simp only [isTrueDescendant, Bool.and_eq_true] at h
      exact h.1
    have h2 := pathStr_isPrefixOf_of_isPrefixOf h1
    simp [jail_path, h2]
  · by_cases hp :
      (pathStr root).isPrefixOf (pathStr (resolveComponents root rel)) = true
    · simp [jail_path, hp]
    · simp only [Bool.not_eq_true] at hp
      simp [jail_path, hp]

/-- C1 (witness for the amended theorem): a concrete descendant
`proj/sub` of root `/proj` is accepted by the jail. -/
theorem claim1_witness :
    jail_path ["proj".toList] ["sub".toList]
      = .ok ["proj".toList, "sub".toList] :=
  (claim1_amended ["proj".toList] ["sub".toList]).1 (by decide)

/-! ## Glob policy (`src/agent/utils.py`, `match_any`;
`FileSystemTool._allowed`)

`match_any` calls `fnmatch.fnmatch(str(path), pat)` for each pattern.
On POSIX (no case folding) and for patterns containing no `?`/`[`/`]` —
the only kind the agent's configuration uses — `fnmatch` translates each
`*` to `.*` and anchors the regex at both ends, so matching means: split
the string so that literal pattern characters match exactly and each `*`
consumes an arbitrary (possibly empty) substring, `/` included.
`globMatch` implements exactly that semantics.  Crucially, `match_any`
receives the *absolute* path string, never a root-relative one. -/

/-- All suffixes of a character list, longest first (including itself and
`[]`). -/
def tailsL : List Char → List (List Char)
  | [] => [[]]
  | c :: s => (c :: s) :: tailsL s

/-- Anchored glob matching of a pattern (restricted to `*` wildcards and
literal characters) against a string. -/
def globMatch : List Char → List Char → Bool
  | [], s => s.isEmpty
  | c :: ps, s =>
    if c = '*' then (tailsL s).any (fun t => globMatch ps t)
    else
      match s with
      | [] => false
      | d :: s' => c == d && globMatch ps s'

/-- `match_any(path, patterns)` from `src/agent/utils.py`. -/
def match_any (path : List Char) (patterns : List (List Char)) : Bool :=
  patterns.any (fun pat => globMatch pat path)

/-- `FileSystemTool._allowed(p)`: at least one allow pattern matches and
no deny pattern does, both applied to the absolute path string. -/
def fs_allowed (allowP denyP : List (List Char)) (p : List Char) : Bool :=
  match_any p allowP && !(match_any p denyP)


/-! ## Directory trees and `FileSystemTool.tree`

`tree` runs `os.walk` from the jailed base (the project root for
`rel="."`), prunes directories deeper than `max_depth` with
`dirnames[:] = []; continue` (which also skips emitting their entries),
filters every entry through `_allowed` on its absolute path, emits
`{path relative to root, type}` and finally sorts by `(type, path)`.

A directory's contents are modelled as an `FSForest`: an ordered listing
whose cells are files or subdirectories (with their own contents).  The
walk is a fuel-indexed frame machine in `os.walk`'s top-down, depth-first
order; the fuel `fs_tree` passes dominates the number of directories, and
every general theorem below holds for all fuels. -/

/-- An ordered directory listing: each cell is a file or a directory
(with its own listing), followed by the remaining siblings. -/
inductive FSForest where
  | nil
  | file (nm : List Char) (rest : FSForest)
  | dir (nm : List Char) (children : FSForest) (rest : FSForest)

/-- Entry type, ordered like the Python strings `"dir" < "file"`. -/
inductive EType where
  | dir
  | file
deriving DecidableEq

/-- One `{path, type}` result entry (path relative to the project root). -/
structure Entry where
  typ : EType
  path : List Char
deriving DecidableEq

/-- Absolute path of a child: `dirAbs + "/" + name`. -/
def childAbs (dirAbs nm : List Char) : List Char := dirAbs ++ '/' :: nm

/-- Root-relative path of a child (`p.relative_to(root)`). -/
def childRel (dirRel nm : List Char) : List Char :=
  if dirRel.isEmpty then nm else dirRel ++ '/' :: nm

/-- Allowed subdirectory entries of one listing, in order
(the `for d in dirnames` loop). -/
def dirEntries (allowP denyP : List (List Char)) (ab rl : List Char) :
    FSForest → List Entry
  | .nil => []
  | .file _ rest => dirEntries allowP denyP ab rl rest
  | .dir nm _ rest =>
      (if fs_allowed allowP denyP (childAbs ab nm) then
        [⟨.dir, childRel rl nm⟩]
      else []) ++ dirEntries allowP denyP ab rl rest

/-- Allowed file entries of one listing, in order
(the `for f in filenames` loop). -/
def fileEntries (allowP denyP : List (List Char)) (ab rl : List Char) :
    FSForest → List Entry
  | .nil => []
  | .dir _ _ rest => fileEntries allowP denyP ab rl rest
  | .file nm rest =>
      (if fs_allowed allowP denyP (childAbs ab nm) then
        [⟨.file, childRel rl nm⟩]
      else []) ++ fileEntries allowP denyP ab rl rest

/-- The entries `tree` appends while visiting one directory:
subdirectories first, then files. -/
def emitEntries (allowP denyP : List (List Char)) (ab rl : List Char)
    (cs : FSForest) : List Entry :=
  dirEntries allowP denyP ab rl cs ++ fileEntries allowP denyP ab rl cs

/-- One pending `os.walk` visit: depth relative to the base, absolute
path, root-relative path, and the directory's listing. -/
structure Frame where
  depth : Nat
  abs : List Char
  rel : List Char
  children : FSForest

/-- The frames for the subdirectories of a visited directory, in listing
order. -/
def subFrames (d : Nat) (ab rl : List Char) : FSForest → List Frame
  | .nil => []
  | .file _ rest => subFrames d ab rl rest
  | .dir nm cs rest =>
      ⟨d + 1, childAbs ab nm, childRel rl nm, cs⟩ :: subFrames d ab rl rest

/-- The `os.walk` loop of `FileSystemTool.tree`: process frames depth
first; a frame deeper than `maxDepth` emits nothing and pushes nothing
(`dirnames[:] = []; continue`). -/
def walkGo (allowP denyP : List (List Char)) (maxDepth : Nat) :
    Nat → List Frame → List Entry
  | 0, _ => []
  | _ + 1, [] => []
  | fuel + 1, f :: rest =>
      if f.depth > maxDepth then walkGo allowP denyP maxDepth fuel rest
      else
        emitEntries allowP denyP f.abs f.rel f.children
          ++ walkGo allowP denyP maxDepth fuel
              (subFrames f.depth f.abs f.rel f.children ++ rest)

/-- Number of cells of a listing, counted recursively, plus one: an
upper bound on the number of `os.walk` frames, used as walk fuel. -/
def sizeF : FSForest → Nat
  | .nil => 1
  | .file _ rest => 1 + sizeF rest
  | .dir _ cs rest => 1 + sizeF cs + sizeF rest

/-- Rank of an entry type under Python's string order
(`"dir" < "file"`). -/
def etypeRank : EType → Nat
  | .dir => 0
  | .file => 1

/-- Python's code-point-lexicographic `≤` on strings. -/
def charListLe : List Char → List Char → Bool
  | [], _ => true
  | _ :: _, [] => false
  | a :: as, b :: bs =>
      if a.toNat = b.toNat then charListLe as bs
      else decide (a.toNat < b.toNat)

/-- The sort key of `tree`: compare `(type, path)` tuples. -/
def entryLe (a b : Entry) : Bool :=
  decide (etypeRank a.typ < etypeRank b.typ)
    || (decide (etypeRank a.typ = etypeRank b.typ) && charListLe a.path b.path)

/-- `entryLe` as a relation, for sorting. -/
def entryR (a b : Entry) : Prop := entryLe a b = true

instance : DecidableRel entryR := fun a b =>
  inferInstanceAs (Decidable (entryLe a b = true))

/-- `FileSystemTool.tree(".", max_depth)` over a modelled project tree:
walk from the root (absolute path `rootAbs`, listing `rootChildren`) and
sort the collected entries by `(type, path)`.  (Python's `sorted` is a
stable sort; entries with equal keys are entirely equal dictionaries
here, so any sorted permutation — such as insertion sort's — is the same
list.) -/
def fs_tree (allowP denyP : List (List Char)) (maxDepth : Nat)
    (rootAbs : List Char) (rootChildren : FSForest) : List Entry :=
  List.insertionSort entryR
    (walkGo allowP denyP maxDepth (sizeF rootChildren)
      [⟨0, rootAbs, [], rootChildren⟩])

/-- The names appearing at the top level of a listing. -/
def topNames : FSForest → List (List Char)
  | .nil => []
  | .file nm rest => nm :: topNames rest
  | .dir nm _ rest => nm :: topNames rest

theorem sizeF_pos (cs : FSForest) : 1 ≤ sizeF cs := by
  cases cs <;> simp only [sizeF] <;> omega

theorem charListLe_total (a : List Char) :
    ∀ b, charListLe a b = true ∨ charListLe b a = true := by
  induction a with
  | nil => intro b; left; rfl
  | cons x xs ih =>
    intro b
    cases b with
    | nil => right; rfl
    | cons y ys =>
      by_cases h : x.toNat = y.toNat
      · rcases ih ys with h1 | h1
        · left; simpa [charListLe, h] using h1
        · right; simpa [charListLe, h.symm] using h1
      · have h' : ¬ y.toNat = x.toNat := fun e => h e.symm
        rcases Nat.lt_or_ge x.toNat y.toNat with hlt | hge
        · left; simp [charListLe, h, hlt]
        · have : y.toNat < x.toNat := lt_of_le_of_ne hge h'
          right; simp [charListLe, h', this]

theorem charListLe_trans (a : List Char) :
    ∀ b c, charListLe a b = true → charListLe b c = true →
      charListLe a c = true := by
  induction a with
  | nil => intro b c _ _; rfl
  | cons x xs ih =>
    intro b c hab hbc
    cases b with
    | nil => simp [charListLe] at hab
    | cons y ys =>
      cases c with
      | nil => simp [charListLe] at hbc
      | cons z zs =>
        by_cases hxy : x.toNat = y.toNat
        · by_cases hyz : y.toNat = z.toNat
          · have hxz : x.toNat = z.toNat := hxy.trans hyz
            simp only [charListLe, if_pos hxy] at hab
            simp only [charListLe, if_pos hyz] at hbc
            simpa only [charListLe, if_pos hxz] using ih ys zs hab hbc
          · have hxz : ¬ x.toNat = z.toNat := by rw [hxy]; exact hyz
            simp only [charListLe, if_neg hyz, decide_eq_true_eq] at hbc
            simp only [charListLe, if_neg hxz, decide_eq_true_eq]
            omega
        · simp only [charListLe, if_neg hxy, decide_eq_true_eq] at hab
          by_cases hyz : y.toNat = z.toNat
          · have hxz : ¬ x.toNat = z.toNat := by rw [← hyz]; exact hxy
            simp only [charListLe, if_neg hxz, decide_eq_true_eq]
            omega
          · simp only [charListLe, if_neg hyz, decide_eq_true_eq] at hbc
            have hxz : ¬ x.toNat = z.toNat := by omega
            simp only [charListLe, if_neg hxz, decide_eq_true_eq]
            omega

instance : IsTotal Entry entryR :=
  ⟨fun a b => by
    unfold entryR entryLe
    rcases Nat.lt_trichotomy (etypeRank a.typ) (etypeRank b.typ) with h | h | h
    · left; simp [h]
    · rcases charListLe_total a.path b.path with hp | hp
      · left; simp [h, hp]
      · right; simp [h.symm, hp]
    · right; simp [h]⟩

instance : IsTrans Entry entryR :=
  ⟨fun a b c hab hbc => by
    unfold entryR entryLe at hab hbc ⊢
    simp only [Bool.or_eq_true, Bool.and_eq_true, decide_eq_true_eq] at hab hbc ⊢
    rcases hab with hab | ⟨hab, hab'⟩ <;> rcases hbc with hbc | ⟨hbc, hbc'⟩
    · exact Or.inl (hab.trans hbc)
    · exact Or.inl (hbc ▸ hab)
    · exact Or.inl (hab ▸ hbc)
    · exact Or.inr ⟨hab.trans hbc, charListLe_trans _ _ _ hab' hbc'⟩⟩

theorem depth_of_mem_subFrames {d : Nat} {ab rl : List Char}
    {cs : FSForest} {f : Frame} (h : f ∈ subFrames d ab rl cs) :
    f.depth = d + 1 := by
  induction cs with
  | nil => simp [subFrames] at h
  | file nm rest ih => exact ih (by simpa [subFrames] using h)
  | dir nm cs' rest ihc ihr =>
    simp only [subFrames, List.mem_cons] at h
    rcases h with rfl | h
    · rfl
    · exact ihr h

theorem walkGo_deep (allowP denyP : List (List Char)) (fuel : Nat) :
    ∀ frames : List Frame, (∀ f ∈ frames, 1 ≤ f.depth) →
      walkGo allowP denyP 0 fuel frames = [] := by
  induction fuel with
  | zero => intro frames _; rfl
  | succ n ih =>
    intro frames h
    cases frames with
    | nil => rfl
    | cons f rest =>
      have hf : f.depth > 0 := h f (by simp)
      simp only [walkGo, if_pos hf]
      exact ih rest fun g hg => h g (by simp [hg])

theorem mem_dirEntries {allowP denyP : List (List Char)}
    {ab rl : List Char} {e : Entry} :
    ∀ {cs : FSForest}, e ∈ dirEntries allowP denyP ab rl cs →
      ∃ nm ∈ topNames cs, e.path = childRel rl nm := by
  intro cs
  induction cs with
  | nil => intro h; simp [dirEntries] at h
  | file nm rest ih =>
    intro h
    obtain ⟨nm', hnm', hp⟩ := ih (by simpa [dirEntries] using h)
    exact ⟨nm', by simp [topNames, hnm'], hp⟩
  | dir nm cs' rest ihc ihr =>
    intro h
    simp only [dirEntries, List.mem_append] at h
    rcases h with h | h
    · split at h
      · simp only [List.mem_singleton] at h
        exact ⟨nm, by simp [topNames], by rw [h]⟩
      · simp at h
    · obtain ⟨nm', hnm', hp⟩ := ihr h
      exact ⟨nm', by simp [topNames, hnm'], hp⟩

theorem mem_fileEntries {allowP denyP : List (List Char)}
    {ab rl : List Char} {e : Entry} :
    ∀ {cs : FSForest}, e ∈ fileEntries allowP denyP ab rl cs →
      ∃ nm ∈ topNames cs, e.path = childRel rl nm := by
  intro cs
  induction cs with
  | nil => intro h; simp [fileEntries] at h
  | dir nm cs' rest ihc ihr =>
    intro h
    obtain ⟨nm', hnm', hp⟩ := ihr (by simpa [fileEntries] using h)
    exact ⟨nm', by simp [topNames, hnm'], hp⟩
  | file nm rest ih =>
    intro h
    simp only [fileEntries, List.mem_append] at h
    rcases h with h | h
    · split at h
      · simp only [List.mem_singleton] at h
        exact ⟨nm, by simp [topNames], by rw [h]⟩
      · simp at h
    · obtain ⟨nm', hnm', hp⟩ := ih h
      exact ⟨nm', by simp [topNames, hnm'], hp⟩

theorem mem_fs_tree_zero {allowP denyP : List (List Char)}
    {ab : List Char} {cs : FSForest} {e : Entry}
    (he : e ∈ fs_tree allowP denyP 0 ab cs) :
    ∃ nm ∈ topNames cs, e.path = nm := by
  unfold fs_tree at he
  rw [List.mem_insertionSort] at he
  obtain ⟨n, hn⟩ : ∃ n, sizeF cs = n + 1 :=
    ⟨sizeF cs - 1, by have := sizeF_pos cs; omega⟩
  rw [hn] at he
  simp only [walkGo, gt_iff_lt, Nat.lt_irrefl, if_false, List.append_nil] at he
  rw [walkGo_deep allowP denyP n _
      (fun g hg => by
        have := depth_of_mem_subFrames (by simpa using hg)
        omega),
    List.append_nil] at he
  simp only [emitEntries, List.mem_append] at he
  rcases he with he | he
  · obtain ⟨nm, hnm, hp⟩ := mem_dirEntries he
    exact ⟨nm, hnm, by simpa [childRel] using hp⟩
  · obtain ⟨nm, hnm, hp⟩ := mem_fileEntries he
    exact ⟨nm, hnm, by simpa [childRel] using hp⟩

/-- C4 (counterexample): project root `/proj` containing `.git/config`
and `a.txt`, allow pattern `**/*`.  With the deny pattern `.git/**` the
claim names, `tree(".", maxDepth=0)` returns the entry `.git`, and with
the repository's default `maxDepth=6` even `.git/config` is returned —
`fnmatch` is applied to *absolute* path strings, which never start with
`.git/`.  Even under the repository's full default deny list the bare
`.git` directory entry is still returned (only `.git`'s *contents* match
`**/.git/**`).  So returned paths do contain `.git`, refuting the deny
part of the claim. -/
theorem claim4_counterexample :
    fs_tree ["**/*".toList] [".git/**".toList] 0 "/proj".toList
        (.dir ".git".toList (.file "config".toList .nil)
          (.file "a.txt".toList .nil))
      = [⟨.dir, ".git".toList⟩, ⟨.file, "a.txt".toList⟩]
    ∧ ⟨.file, ".git/config".toList⟩ ∈
        fs_tree ["**/*".toList] [".git/**".toList] 6 "/proj".toList
          (.dir ".git".toList (.file "config".toList .nil)
            (.file "a.txt".toList .nil))
    ∧ fs_tree ["**/*".toList]
          [".git/**".toList, "**/.git/**".toList,
            "**/node_modules/**".toList, ".env".toList, "**/.env*".toList]
          6 "/proj".toList
          (.dir ".git".toList (.file "config".toList .nil)
            (.file "a.txt".toList .nil))
        = [⟨.dir, ".git".toList⟩, ⟨.file, "a.txt".toList⟩] := by
  refine ⟨by decide, by decide, by decide⟩

/-- C4 (amended): `tree(".", maxDepth=0)` returns only entries directly
at the root level (their paths are the root's child names, containing no
`/`), and the result is sorted by `(type, path)`.  The deny filter,
however, matches patterns against absolute path strings, so the relative
pattern `.git/**` matches no absolute path at all and excludes
nothing. -/
theorem claim4_amended (allowP denyP : List (List Char)) (maxDepth : Nat)
    (ab : List Char) (cs : FSForest) :
    ((∀ nm ∈ topNames cs, nm.all (fun c => !(c == '/')) = true) →
      ∀ e ∈ fs_tree allowP denyP 0 ab cs,
        e.path.all (fun c => !(c == '/')) = true)
    ∧ List.Sorted entryR (fs_tree allowP denyP maxDepth ab cs)
    ∧ (∀ s : List Char, globMatch (".git/**".toList) ('/' :: s) = false) := by
  refine ⟨?_, ?_, ?_⟩
  · intro h e he
    obtain ⟨nm, hnm, hp⟩ := mem_fs_tree_zero he
    rw [hp]
    exact h nm hnm
  · exact List.sorted_insertionSort entryR _
  · intro s; rfl

/-- C4 (witness for the amended theorem): on the concrete counterexample
tree, every entry of `tree(".", 0)` is a root-level name. -/
theorem claim4_witness :
    ∀ e ∈ fs_tree ["**/*".toList] [".git/**".toList] 0 "/proj".toList
        (.dir ".git".toList (.file "config".toList .nil)
          (.file "a.txt".toList .nil)),
      e.path.all (fun c => !(c == '/')) = true :=
  (claim4_amended ["**/*".toList] [".git/**".toList] 0 "/proj".toList
    (.dir ".git".toList (.file "config".toList .nil)
      (.file "a.txt".toList .nil))).1 (by decide)

/-! ## UTF-8 (Python's `str.encode("utf-8")` and `bytes.decode("utf-8")`)

Python strings are sequences of code points; `encode("utf-8")` maps each
scalar value (code points below `0x110000` outside the surrogate range)
to 1–4 bytes, and strict `decode("utf-8")` inverts this, rejecting
overlong forms, surrogates and out-of-range leads. -/

/-- A code point Python can encode as UTF-8 (no surrogates). -/
def validScalar (c : Nat) : Bool :=
  decide (c < 0x110000) && (decide (c < 0xD800) || decide (0xE000 ≤ c))

/-- UTF-8 encoding of one scalar value. -/
def utf8EncodeChar (c : Nat) : List Nat :=
  if c < 0x80 then [c]
  else if c < 0x800 then [0xC0 + c / 64, 0x80 + c % 64]
  else if c < 0x10000 then
    [0xE0 + c / 4096, 0x80 + c / 64 % 64, 0x80 + c % 64]
  else
    [0xF0 + c / 262144, 0x80 + c / 4096 % 64, 0x80 + c / 64 % 64,
      0x80 + c % 64]

/-- `content.encode("utf-8")`. -/
def utf8Encode (cs : List Nat) : List Nat := (cs.map utf8EncodeChar).flatten

/-- A UTF-8 continuation byte. -/
def isCont (b : Nat) : Bool := decide (0x80 ≤ b) && decide (b < 0xC0)

/-- Strict UTF-8 decoding of one scalar: rejects overlong encodings,
surrogates, and leads above `0xF4`, exactly as Python's strict codec. -/
def utf8DecodeChar : List Nat → Option (Nat × List Nat)
  | [] => none
  | b0 :: rest =>
    if b0 < 0x80 then some (b0, rest)
    else if b0 < 0xC2 then none
    else if b0 < 0xE0 then
      match rest with
      | b1 :: rest' =>
        if isCont b1 then some ((b0 - 0xC0) * 64 + (b1 - 0x80), rest')
        else none
      | [] => none
    else if b0 < 0xF0 then
      match rest with
      | b1 :: b2 :: rest' =>
        if isCont b1 && isCont b2 then
          let c := (b0 - 0xE0) * 4096 + (b1 - 0x80) * 64 + (b2 - 0x80)
          if 0x800 ≤ c ∧ ¬(0xD800 ≤ c ∧ c < 0xE000) then some (c, rest')
          else none
        else none
      | _ => none
    else if b0 < 0xF5 then
      match rest with
      | b1 :: b2 :: b3 :: rest' =>
        if isCont b1 && isCont b2 && isCont b3 then
          let c := (b0 - 0xF0) * 262144 + (b1 - 0x80) * 4096
            + (b2 - 0x80) * 64 + (b3 - 0x80)
          if 0x10000 ≤ c ∧ c < 0x110000 then some (c, rest') else none
        else none
      | _ => none
    else none

/-- Decode a whole byte string (fuelled by its length; each scalar
consumes at least one byte). -/
def utf8DecodeGo : Nat → List Nat → Option (List Nat)
  | _, [] => some []
  | 0, _ :: _ => none
  | fuel + 1, b :: bs =>
    match utf8DecodeChar (b :: bs) with
    | none => none
    | some (c, rest) => (utf8DecodeGo fuel rest).map (fun cs => c :: cs)

/-- `data.decode("utf-8")` under the strict error handler: all code
points or failure. -/
def utf8Decode (bs : List Nat) : Option (List Nat) :=
  utf8DecodeGo bs.length bs

/-! ## Filesystem state and `FileSystemTool` (`src/agent/tools/fs.py`)

The on-disk project is an association list from absolute path strings to
nodes (regular files with their bytes, or directories); the backup
directory is the list of byte strings copied into it, newest first. -/

/-- A filesystem node: a regular file's bytes, or a directory. -/
inductive FsNode where
  | file (bytes : List Nat)
  | dir
deriving DecidableEq

/-- Observable storage state: project files plus backup-dir contents. -/
structure FsState where
  files : List (List Char × FsNode)
  backups : List (List Nat)
deriving DecidableEq

/-- Association-list lookup by path key. -/
def lookupA {α : Type} (k : List Char) : List (List Char × α) → Option α
  | [] => none
  | (k', v) :: rest => if k = k' then some v else lookupA k rest

/-- Association-list overwrite-or-insert by path key. -/
def setA {α : Type} (k : List Char) (v : α) :
    List (List Char × α) → List (List Char × α)
  | [] => [(k, v)]
  | (k', v') :: rest =>
      if k = k' then (k, v) :: rest else (k', v') :: setA k v rest

/-- Remove every binding of a path key. -/
def eraseA {α : Type} (k : List Char) (m : List (List Char × α)) :
    List (List Char × α) :=
  m.filter (fun p => !(p.1 == k))

/-- The spec's failure taxonomy for filesystem operations. -/
inductive FsErr where
  | pathEscape
  | permissionDenied
  | notFound
  | ioFailure
deriving DecidableEq

/-- The fixed jail configuration: project root and allow/deny globs. -/
structure JailCfg where
  root : PathC
  allowP : List (List Char)
  denyP : List (List Char)

/-- `FileSystemTool._target(rel)`: `jail_path`, then `_allowed` on the
resolved path's string; returns the rendered absolute path, the storage
key. -/
def fs_target (cfg : JailCfg) (rel : List (List Char)) :
    Except FsErr (List Char) :=
  match jail_path cfg.root rel with
  | .error _ => .error .pathEscape
  | .ok pp =>
    let key := pathStr pp
    if fs_allowed cfg.allowP cfg.denyP key then .ok key
    else .error .permissionDenied

/-- `atomic_write(path, data)` from `src/agent/utils.py`: write a sibling
temporary file and `os.replace` it over the target — the only observable
outcome is that `path` holds exactly `data`; no partial file is ever
visible. -/
def atomic_write (key : List Char) (data : List Nat) (st : FsState) :
    FsState :=
  { st with files := setA key (.file data) st.files }

/-- `backup_file(backup_dir, path)` from `src/agent/utils.py`:
`shutil.copy2` the target's current bytes into the backup directory.
`copy2` succeeds only on a regular file; `backupOk` models the
environment's cooperation (disk space, permissions).  `none` means the
call raises. -/
def backup_file (backupOk : Bool) (node : FsNode) : Option (List Nat) :=
  match node with
  | .file bs => if backupOk then some bs else none
  | .dir => none

/-- `FileSystemTool.write(rel, content, backup)`: jail + policy check,
then `if backup and path.exists(): backup_file(...)`, then
`atomic_write(path, content.encode("utf-8"))`.  A backup failure raises
*before* `atomic_write` runs, so the state is returned unchanged.
`content` is a Python string, i.e. a list of code points. -/
def fs_write (cfg : JailCfg) (backupOk : Bool) (st : FsState)
    (rel : List (List Char)) (content : List Nat) (backup : Bool) :
    FsState × Except FsErr Unit :=
  match fs_target cfg rel with
  | .error e => (st, .error e)
  | .ok key =>
    match (if backup then lookupA key st.files else none) with
    | some node =>
      match backup_file backupOk node with
      | none => (st, .error .ioFailure)
      | some bs =>
        (atomic_write key (utf8Encode content)
          { st with backups := bs :: st.backups }, .ok ())
    | none => (atomic_write key (utf8Encode content) st, .ok ())

/-- The value `FileSystemTool.read` returns: decoded text when the bytes
are valid UTF-8, otherwise the raw bytes (rendered as hex by the
source). -/
inductive ReadOut where
  | text (codepoints : List Nat)
  | binary (bytes : List Nat)
deriving DecidableEq

/-- `FileSystemTool.read(rel, start, length)`: `_check_file` (target must
be a regular file), seek to `start`, read at most
`min(length, max_read_bytes)` bytes (`max_read_bytes` when `length` is
omitted), then decode UTF-8 with hex fallback. -/
def fs_read (cfg : JailCfg) (maxReadBytes : Nat) (st : FsState)
    (rel : List (List Char)) (start : Nat) (length : Option Nat) :
    Except FsErr ReadOut :=
  match fs_target cfg rel with
  | .error e => .error e
  | .ok key =>
    match lookupA key st.files with
    | some (.file bs) =>
      let want :=
        match length with
        | none => maxReadBytes
        | some l => min l maxReadBytes
      let data := (bs.drop start).take want
      match utf8Decode data with
      | some cps => .ok (.text cps)
      | none => .ok (.binary data)
    | some .dir => .error .notFound
    | none => .error .notFound

/-- `FileSystemTool.delete(rel)`: jail + policy check; `shutil.rmtree`
for a directory (removing it and everything beneath it), `unlink` for a
file, and — when the path matches neither `is_dir()` nor `exists()` —
no action at all; every branch returns `{"ok": True}`. -/
def fs_delete (cfg : JailCfg) (st : FsState) (rel : List (List Char)) :
    FsState × Except FsErr Unit :=
  match fs_target cfg rel with
  | .error e => (st, .error e)
  | .ok key =>
    match lookupA key st.files with
    | some .dir =>
      let keep : List Char × FsNode → Bool := fun p =>
        !(p.1 == key) && !((key ++ ['/']).isPrefixOf p.1)
      ({ st with files := st.files.filter keep }, .ok ())
    | some (.file _) => ({ st with files := eraseA key st.files }, .ok ())
    | none => (st, .ok ())

theorem lookupA_setA {α : Type} (k : List Char) (v : α) :
    ∀ m : List (List Char × α), lookupA k (setA k v m) = some v := by
  intro m
  induction m with
  | nil => simp [setA, lookupA]
  | cons p rest ih =>
    obtain ⟨k', v'⟩ := p
    by_cases hk : k = k'
    · simp [setA, hk, lookupA]
    · simp [setA, hk, lookupA, ih]

theorem lookupA_filter {α : Type} (k : List Char)
    (f : List Char × α → Bool) (hf : ∀ v, f (k, v) = false) :
    ∀ m : List (List Char × α), lookupA k (m.filter f) = none := by
  intro m
  induction m with
  | nil => rfl
  | cons p rest ih =>
    obtain ⟨k', v⟩ := p
    by_cases hk : k = k'
    · subst hk
      rw [List.filter_cons, hf v]
      simpa using ih
    · rw [List.filter_cons]
      cases hfv : f (k', v)
      · simpa using ih
      · simp [lookupA, hk, ih]

/-- A sample jail configuration for concrete witnesses: root `/proj`,
allow everything, deny nothing. -/
def sampleCfg : JailCfg :=
  ⟨["proj".toList], ["**/*".toList], []⟩

/-- C2: if the allowed path `p` currently holds bytes `C0`, then
`write(p, C1, backup=true)` first copies exactly `C0` into the backup
directory and only then overwrites `p` with the encoding of `C1`; and if
`backup_file` fails, the raised error aborts the call *before*
`atomic_write` runs, leaving the state — in particular `p`'s content
`C0` — unchanged. -/
theorem claim2_write_backup (cfg : JailCfg) (st : FsState)
    (rel : List (List Char)) (key : List Char) (c0 : List Nat)
    (c1 : List Nat)
    (htgt : fs_target cfg rel = .ok key)
    (hold : lookupA key st.files = some (.file c0)) :
    fs_write cfg true st rel c1 true
        = ({ files := setA key (.file (utf8Encode c1)) st.files,
             backups := c0 :: st.backups }, .ok ())
    ∧ fs_write cfg false st rel c1 true = (st, .error .ioFailure)
    ∧ lookupA key (fs_write cfg false st rel c1 true).1.files
        = some (.file c0) := by
  refine ⟨?_, ?_, ?_⟩
  · simp [fs_write, htgt, hold, backup_file, atomic_write]
  · simp [fs_write, htgt, hold, backup_file]
  · simp [fs_write, htgt, hold, backup_file]

/-- C2 (witness): `/proj/a.txt` holds byte `104`; a backed-up write of
`"w"` stores `[104]` in the backup directory and replaces the file. -/
theorem claim2_witness :
    fs_write sampleCfg true ⟨[("/proj/a.txt".toList, .file [104])], []⟩
        ["a.txt".toList] [119] true
      = (⟨[("/proj/a.txt".toList, .file (utf8Encode [119]))], [[104]]⟩,
          .ok ()) :=
  (claim2_write_backup sampleCfg ⟨[("/proj/a.txt".toList, .file [104])], []⟩
    ["a.txt".toList] "/proj/a.txt".toList [104] [119]
    (by rfl) (by decide)).1

/-- C9: under a target accepted by the jail and the pattern policy,
`delete` on a path that does not exist succeeds (returning `{"ok": True}`
with the state untouched) instead of failing with NotFound; `delete`
always reports success; and deleting the same path twice yields the same
state and the same successful result as deleting it once. -/
theorem claim9_delete_idempotent (cfg : JailCfg) (st : FsState)
    (rel : List (List Char)) (key : List Char)
    (htgt : fs_target cfg rel = .ok key) :
    (lookupA key st.files = none → fs_delete cfg st rel = (st, .ok ()))
    ∧ (fs_delete cfg st rel).2 = .ok ()
    ∧ fs_delete cfg (fs_delete cfg st rel).1 rel = fs_delete cfg st rel := by
  refine ⟨?_, ?_, ?_⟩
  · intro h; simp [fs_delete, htgt, h]
  · cases hl : lookupA key st.files with
    | none => simp [fs_delete, htgt, hl]
    | some node => cases node <;> simp [fs_delete, htgt, hl]
  · cases hl : lookupA key st.files with
    | none => simp [fs_delete, htgt, hl]
    | some node =>
      cases node with
      | file bs =>
        have h1 : fs_delete cfg st rel
            = ({ st with files := eraseA key st.files }, .ok ()) := by
          simp [fs_delete, htgt, hl]
        have hnone : lookupA key (eraseA key st.files) = none := by
          apply lookupA_filter
          intro v; simp
        rw [h1]
        simp [fs_delete, htgt, hnone]
      | dir =>
        have h1 : fs_delete cfg st rel
            = ({ st with files := st.files.filter (fun p =>
                  !(p.1 == key) && !((key ++ ['/']).isPrefixOf p.1)) },
                .ok ()) := by
          simp [fs_delete, htgt, hl]
        have hnone : lookupA key (st.files.filter (fun p =>
            !(p.1 == key) && !((key ++ ['/']).isPrefixOf p.1))) = none := by
          apply lookupA_filter
          intro v; simp
        rw [h1]
        simp [fs_delete, htgt, hnone]

/-- C9 (witness): deleting the absent `/proj/gone.txt` succeeds and
leaves the (empty) project untouched. -/
theorem claim9_witness :
    fs_delete sampleCfg ⟨[], []⟩ ["gone.txt".toList] = (⟨[], []⟩, .ok ()) :=
  (claim9_delete_idempotent sampleCfg ⟨[], []⟩ ["gone.txt".toList]
    "/proj/gone.txt".toList (by rfl)).1 (by decide)

theorem utf8EncodeChar_ne_nil (c : Nat) : utf8EncodeChar c ≠ [] := by
  unfold utf8EncodeChar
  split
  · simp
  · split
    · simp
    · split <;> simp

theorem utf8DecodeChar_encode (c : Nat) (h : validScalar c = true)
    (tl : List Nat) :
    utf8DecodeChar (utf8EncodeChar c ++ tl) = some (c, tl) := by
  simp only [validScalar, Bool.and_eq_true, Bool.or_eq_true,
    decide_eq_true_eq] at h
  obtain ⟨h1, h2⟩ := h
  by_cases hc1 : c < 0x80
  · simp only [utf8EncodeChar, if_pos hc1, List.cons_append, List.nil_append]
    simp [utf8DecodeChar, hc1]
  · by_cases hc2 : c < 0x800
    · simp only [utf8EncodeChar, if_neg hc1, if_pos hc2, List.cons_append,
        List.nil_append]
      have hb0 : ¬ (0xC0 + c / 64 < 0x80) := by omega
      have hb0' : ¬ (0xC0 + c / 64 < 0xC2) := by omega
      have hb0'' : 0xC0 + c / 64 < 0xE0 := by omega
      have hcont : isCont (0x80 + c % 64) = true := by
        simp only [isCont, Bool.and_eq_true, decide_eq_true_eq]
        omega
      have hval : (0xC0 + c / 64 - 0xC0) * 64 + (0x80 + c % 64 - 0x80)
          = c := by
        have h64 : 0xC0 + c / 64 - 0xC0 = c / 64 := by omega
        have hm : 0x80 + c % 64 - 0x80 = c % 64 := by omega
        rw [h64, hm]
        omega
      simp only [utf8DecodeChar, if_neg hb0, if_neg hb0', if_pos hb0'',
        hcont, if_true, hval]
    · by_cases hc3 : c < 0x10000
      · simp only [utf8EncodeChar, if_neg hc1, if_neg hc2, if_pos hc3,
          List.cons_append, List.nil_append]
        have hb0 : ¬ (0xE0 + c / 4096 < 0x80) := by omega
        have hb0' : ¬ (0xE0 + c / 4096 < 0xC2) := by omega
        have hb0'' : ¬ (0xE0 + c / 4096 < 0xE0) := by omega
        have hb0''' : 0xE0 + c / 4096 < 0xF0 := by omega
        have hcont1 : isCont (0x80 + c / 64 % 64) = true := by
          simp only [isCont, Bool.and_eq_true, decide_eq_true_eq]
          omega
        have hcont2 : isCont (0x80 + c % 64) = true := by
          simp only [isCont, Bool.and_eq_true, decide_eq_true_eq]
          omega
        have hval : (0xE0 + c / 4096 - 0xE0) * 4096
            + (0x80 + c / 64 % 64 - 0x80) * 64 + (0x80 + c % 64 - 0x80)
            = c := by omega
        simp only [utf8DecodeChar, if_neg hb0, if_neg hb0', if_neg hb0'',
          if_pos hb0''', hcont1, hcont2, Bool.and_self, if_true, hval]
        have hguard : 0x800 ≤ c ∧ ¬(0xD800 ≤ c ∧ c < 0xE000) := by omega
        rw [if_pos hguard]
      · simp only [utf8EncodeChar, if_neg hc1, if_neg hc2, if_neg hc3,
          List.cons_append, List.nil_append]
        have hb0 : ¬ (0xF0 + c / 262144 < 0x80) := by omega
        have hb0' : ¬ (0xF0 + c / 262144 < 0xC2) := by omega
        have hb0'' : ¬ (0xF0 + c / 262144 < 0xE0) := by omega
        have hb0''' : ¬ (0xF0 + c / 262144 < 0xF0) := by omega
        have hb0'''' : 0xF0 + c / 262144 < 0xF5 := by omega
        have hcont1 : isCont (0x80 + c / 4096 % 64) = true := by
          simp only [isCont, Bool.and_eq_true, decide_eq_true_eq]
          omega
        have hcont2 : isCont (0x80 + c / 64 % 64) = true := by
          simp only [isCont, Bool.and_eq_true, decide_eq_true_eq]
          omega
        have hcont3 : isCont (0x80 + c % 64) = true := by
          simp only [isCont, Bool.and_eq_true, decide_eq_true_eq]
          omega
        have hval : (0xF0 + c / 262144 - 0xF0) * 262144
            + (0x80 + c / 4096 % 64 - 0x80) * 4096
            + (0x80 + c / 64 % 64 - 0x80) * 64 + (0x80 + c % 64 - 0x80)
            = c := by omega
        simp only [utf8DecodeChar, if_neg hb0, if_neg hb0', if_neg hb0'',
          if_neg hb0''', if_pos hb0'''', hcont1, hcont2, hcont3,
          Bool.and_self, if_true, hval]
        have hguard : 0x10000 ≤ c ∧ c < 0x110000 := by omega
        rw [if_pos hguard]

theorem utf8DecodeGo_encode (cs : List Nat) (h : cs.all validScalar = true) :
    ∀ fuel, (utf8Encode cs).length ≤ fuel →
      utf8DecodeGo fuel (utf8Encode cs) = some cs := by
  induction cs with
  | nil =>
    intro fuel _
    cases fuel <;> rfl
  | cons c rest ih =>
    intro fuel hfuel
    simp only [List.all_cons, Bool.and_eq_true] at h
    have henc : utf8Encode (c :: rest)
        = utf8EncodeChar c ++ utf8Encode rest := by
      simp [utf8Encode]
    rw [henc] at hfuel ⊢
    have hne := utf8EncodeChar_ne_nil c
    have hlen : 1 ≤ (utf8EncodeChar c).length := by
      cases hx : utf8EncodeChar c with
      | nil => exact absurd hx hne
      | cons b bs => simp
    obtain ⟨f, rfl⟩ : ∃ f, fuel = f + 1 := by
      cases fuel with
      | zero =>
        exfalso
        rw [List.length_append] at hfuel
        omega
      | succ f => exact ⟨f, rfl⟩
    obtain ⟨b, bs, hb⟩ :
        ∃ b bs, utf8EncodeChar c ++ utf8Encode rest = b :: bs := by
      cases hx : utf8EncodeChar c with
      | nil => exact absurd hx hne
      | cons b bs' => exact ⟨b, bs' ++ utf8Encode rest, by simp [hx]⟩
    rw [hb]
    simp only [utf8DecodeGo]
    rw [← hb, utf8DecodeChar_encode c h.1]
    have hrest : (utf8Encode rest).length ≤ f := by
      rw [List.length_append] at hfuel
      omega
    show Option.map (fun cs => c :: cs) (utf8DecodeGo f (utf8Encode rest))
      = some (c :: rest)
    rw [ih h.2 f hrest]
    rfl

theorem utf8Decode_encode (cs : List Nat) (h : cs.all validScalar = true) :
    utf8Decode (utf8Encode cs) = some cs :=
  utf8DecodeGo_encode cs h _ le_rfl

/-- C5: for a path accepted by the jail and the pattern policy, and any
content whose UTF-8 encoding is at most the configured maximum read
size, a successful `write(p, C)` followed by `read(p)` returns exactly
`C`, decoded on the text path. -/
theorem claim5_write_read_roundtrip (cfg : JailCfg) (st : FsState)
    (rel : List (List Char)) (key : List Char) (content : List Nat)
    (maxReadBytes : Nat) (backupOk : Bool) (backup : Bool)
    (htgt : fs_target cfg rel = .ok key)
    (hvalid : content.all validScalar = true)
    (hsize : (utf8Encode content).length ≤ maxReadBytes)
    (hok : (fs_write cfg backupOk st rel content backup).2 = .ok ()) :
    fs_read cfg maxReadBytes
        (fs_write cfg backupOk st rel content backup).1 rel 0 none
      = .ok (.text content) := by
  have hfiles : (fs_write cfg backupOk st rel content backup).1.files
      = setA key (.file (utf8Encode content)) st.files := by
    simp only [fs_write, htgt] at hok ⊢
    cases hbl : (if backup then lookupA key st.files else none) with
    | none => simp [hbl, atomic_write]
    | some node =>
      cases hbf : backup_file backupOk node with
      | none => simp [hbl, hbf] at hok
      | some bs => simp [hbl, hbf, atomic_write]
  simp only [fs_read, htgt, hfiles, lookupA_setA, List.drop_zero]
  rw [List.take_of_length_le hsize, utf8Decode_encode content hvalid]

/-- C5 (witness): writing the string `"h€"` (code points `[104, 8364]`,
three UTF-8 bytes) to a fresh `/proj/a.txt` and reading it back with the
default 2 MB limit returns exactly those code points. -/
theorem claim5_witness :
    fs_read sampleCfg 2000000
        (fs_write sampleCfg true ⟨[], []⟩ ["a.txt".toList]
          [104, 8364] true).1
        ["a.txt".toList] 0 none
      = .ok (.text [104, 8364]) :=
  claim5_write_read_roundtrip sampleCfg ⟨[], []⟩ ["a.txt".toList]
    "/proj/a.txt".toList [104, 8364] 2000000 true true
    (by rfl) (by decide) (by decide) (by rfl)

/-! ## The diff engine (`src/agent/tools/edit.py`)

`EditTool._patch(old_lines, diff_text)` is a *reconstruction*: it scans
`diff_text` line by line (modelled as `diffLines`, the `readline`
decomposition of the text, each line keeping its terminator).  If a `@@`
hunk marker exists, every line from the first marker on is classified;
otherwise the whole text is classified and an empty reconstruction is a
parse failure.  `old_lines` is copied into `patched` and never used
again. -/

/-- `line.startswith('@@')`. -/
def isHunkLine (l : List Char) : Bool := ['@', '@'].isPrefixOf l

/-- Classification of one diff body line, in the source's test order:
`@@` markers, deletions (`-` but not `---`), `\ No newline` markers and
file headers (`---`/`+++`) are dropped; insertions (`+` but not `+++`)
and context lines contribute `l[1:]` (also for context, via the final
`l[1:] if l.startswith(' ') else l`); anything else is kept verbatim. -/
def classifyLine (l : List Char) : Option (List Char) :=
  if ['@', '@'].isPrefixOf l then none
  else if ['+'].isPrefixOf l && !(['+', '+', '+'].isPrefixOf l) then
    some l.tail
  else if ['-'].isPrefixOf l && !(['-', '-', '-'].isPrefixOf l) then none
  else if ['\\', ' ', 'N', 'o', ' ', 'n', 'e', 'w', 'l', 'i', 'n', 'e'].isPrefixOf l then
    none
  else if ['-', '-', '-'].isPrefixOf l || ['+', '+', '+'].isPrefixOf l then
    none
  else if [' '].isPrefixOf l then some l.tail
  else some l

/-- Python whitespace for `str.strip()` (the ASCII set; diff framing is
ASCII). -/
def pyWhitespace (c : Char) : Bool :=
  c = ' ' || c = '\t' || c = '\n' || c = '\r' || c = '\x0b' || c = '\x0c'

/-- This line contributes nothing to `diff_text.strip()`. -/
def strippedEmpty (l : List Char) : Bool := l.all pyWhitespace

/-- `EditTool._patch(old_lines, diff_text)`.  Returns `none` for the
source's `return None` (parse failure).  The binding of `oldLines`
mirrors `patched = old_lines[:]`, which the source never reads back: the
result depends only on the diff text. -/
def _patch (oldLines : List (List Char)) (diffLines : List (List Char)) :
    Option (List (List Char)) :=
  let _patched := oldLines
  if diffLines.isEmpty || diffLines.all strippedEmpty then none
  else
    match diffLines.findIdx? isHunkLine with
    | none =>
      let new := diffLines.filterMap classifyLine
      if new.isEmpty then none else some new
    | some i => some ((diffLines.drop i).filterMap classifyLine)

/-- The outcomes of `EditTool.apply_unified_diff`. -/
inductive ApplyResult where
  | ok
  | errJail
  | errParse
deriving DecidableEq

/-- Project text files and backup-directory contents, as seen by the
edit tool. -/
structure EditFS where
  files : List (List Char × List Char)
  backups : List (List Char)
deriving DecidableEq

/-- Accumulator pass of `splitlines(keepends=True)` for `\n`-terminated
text. -/
def splitKeGo (acc : List Char) : List Char → List (List Char)
  | [] => if acc.isEmpty then [] else [acc.reverse]
  | c :: rest =>
    if c = '\n' then (acc.reverse ++ ['\n']) :: splitKeGo [] rest
    else splitKeGo (c :: acc) rest

/-- `text.splitlines(keepends=True)` restricted to `\n` terminators (the
only ones the agent produces; `_patch` discards the result anyway). -/
def splitKeepEnds (s : List Char) : List (List Char) := splitKeGo [] s

/-- `EditTool.apply_unified_diff(filename, diff_text)`: resolve the
target under the project root and check
`str(target).startswith(str(project_root))`; read the file's lines if it
exists (else `[]`); run `_patch`; on parse failure report the error
without writing; otherwise back up an existing file and atomically write
`"".join(patched)`. -/
def apply_unified_diff (root : PathC) (st : EditFS)
    (filename : List (List Char)) (diffLines : List (List Char)) :
    EditFS × ApplyResult :=
  let target := resolveComponents root filename
  if (pathStr root).isPrefixOf (pathStr target) then
    let key := pathStr target
    match lookupA key st.files with
    | none =>
      match _patch [] diffLines with
      | none => (st, .errParse)
      | some newLines =>
        ({ st with files := setA key newLines.flatten st.files }, .ok)
    | some c =>
      match _patch (splitKeepEnds c) diffLines with
      | none => (st, .errParse)
      | some newLines =>
        ({ files := setA key newLines.flatten st.files,
           backups := c :: st.backups }, .ok)
  else (st, .errJail)

/-- A context line (leading space) or an insertion line (`+` but not
`+++`). -/
def isCtxIns (l : List Char) : Bool :=
  [' '].isPrefixOf l || (['+'].isPrefixOf l && !(['+', '+', '+'].isPrefixOf l))

theorem ctxIns_facts (l : List Char) (h : isCtxIns l = true) :
    classifyLine l = some l.tail ∧ isHunkLine l = false := by
  simp only [isCtxIns, Bool.or_eq_true, Bool.and_eq_true,
    Bool.not_eq_true'] at h
  rcases h with h | ⟨h1, h2⟩
  · rw [List.isPrefixOf_iff_prefix] at h
    obtain ⟨t, rfl⟩ := h
    constructor
    · simp [classifyLine, List.isPrefixOf,
        (show ('@' == ' ') = false from rfl),
        (show ('+' == ' ') = false from rfl),
        (show ('-' == ' ') = false from rfl),
        (show ('\\' == ' ') = false from rfl)]
    · simp [isHunkLine, List.isPrefixOf,
        (show ('@' == ' ') = false from rfl)]
  · rw [List.isPrefixOf_iff_prefix] at h1
    obtain ⟨t, rfl⟩ := h1
    have h2' : ¬ (['+', '+'] <+: t) := by
      intro hc
      rw [← List.isPrefixOf_iff_prefix] at hc
      have : (['+', '+', '+'].isPrefixOf (['+'] ++ t)) = true := by
        simp only [List.cons_append, List.nil_append, List.isPrefixOf,
          (show ('+' == '+') = true from rfl), Bool.true_and]
        exact hc
      rw [this] at h2
      exact Bool.true_eq_false.mp h2
    clear h2
    constructor
    · simp [classifyLine, List.isPrefixOf, h2',
        (show ('@' == '+') = false from rfl)]
    · simp [isHunkLine, List.isPrefixOf,
        (show ('@' == '+') = false from rfl)]

theorem hunk_not_stripped (l : List Char) (h : isHunkLine l = true) :
    strippedEmpty l = false := by
  rw [isHunkLine, List.isPrefixOf_iff_prefix] at h
  obtain ⟨t, rfl⟩ := h
  simp [strippedEmpty, (show pyWhitespace '@' = false from rfl)]

theorem all_stripped_false_of_findIdx :
    ∀ (ds : List (List Char)) (i j : Nat),
      List.findIdx? isHunkLine ds i = some j →
      ds.all strippedEmpty = false := by
  intro ds
  induction ds with
  | nil => intro i j h; simp [List.findIdx?] at h
  | cons l rest ih =>
    intro i j h
    rw [List.findIdx?_cons] at h
    by_cases hl : isHunkLine l = true
    · simp [List.all_cons, hunk_not_stripped l hl]
    · rw [if_neg hl] at h
      simp [List.all_cons, ih (i + 1) j h]

theorem filterMap_classify_of_ctxIns :
    ∀ ds : List (List Char), (∀ l ∈ ds, isCtxIns l = true) →
      ds.filterMap classifyLine = ds.map List.tail := by
  intro ds
  induction ds with
  | nil => intro _; rfl
  | cons l rest ih =>
    intro hall
    rw [List.filterMap_cons, (ctxIns_facts l (hall l (by simp))).1,
      List.map_cons, ih fun x hx => hall x (by simp [hx])]

/-- C3: the reconstruction never consults the original content — for any
accepted diff, `_patch` returns the same output for any two original
line lists; and on a diff whose lines are all context or insertion
lines, the output is exactly those lines' payloads (each line minus its
marker character), in order. -/
theorem claim3_noninterference (old1 old2 ds : List (List Char))
    (hacc : _patch old1 ds ≠ none) :
    _patch old1 ds = _patch old2 ds
    ∧ ((∀ l ∈ ds, isCtxIns l = true) →
        _patch old1 ds = some (ds.map List.tail)) := by
  constructor
  · rfl
  · intro hall
    have hnohunk : ds.findIdx? isHunkLine = none :=
      List.findIdx?_eq_none_iff.mpr fun l hl => (ctxIns_facts l (hall l hl)).2
    by_cases hstrip : (ds.isEmpty || ds.all strippedEmpty) = true
    · exact absurd (by simp [_patch, hstrip]) hacc
    · have hif : _patch old1 ds
          = (if (ds.map List.tail).isEmpty then none
             else some (ds.map List.tail)) := by
        simp only [_patch, if_neg hstrip, hnohunk,
          filterMap_classify_of_ctxIns ds hall]
      cases hnew : (ds.map List.tail).isEmpty with
      | false => rw [hif, if_neg (by simp [hnew])]
      | true => exact absurd (by rw [hif, if_pos hnew]) hacc

/-- C3 (witness): the context+insertion diff `" a\n+b\n"` reconstructs
to `["a\n", "b\n"]`, identically over the empty original and over
`["old\n"]`. -/
theorem claim3_witness :
    _patch [] [" a\n".toList, "+b\n".toList]
        = _patch ["old\n".toList] [" a\n".toList, "+b\n".toList]
    ∧ _patch [] [" a\n".toList, "+b\n".toList]
        = some ["a\n".toList, "b\n".toList] :=
  ⟨(claim3_noninterference [] ["old\n".toList]
      [" a\n".toList, "+b\n".toList] (by decide)).1,
    (claim3_noninterference [] ["old\n".toList]
      [" a\n".toList, "+b\n".toList] (by decide)).2 (by decide)⟩

/-- C10: for a target accepted by the jail check, the engine treats an
empty reconstruction asymmetrically.  If the diff contains a `@@` hunk
marker and the body from the marker on classifies to zero output lines,
`apply` succeeds and writes an empty file; if the diff has no `@@`
marker and classifies to zero output lines, `_patch` reports a parse
failure and `apply` returns the error with the state unchanged. -/
theorem claim10_empty_reconstruction (root : PathC) (st : EditFS)
    (filename : List (List Char)) (ds : List (List Char))
    (hjail : (pathStr root).isPrefixOf
        (pathStr (resolveComponents root filename)) = true) :
    (∀ i, ds.findIdx? isHunkLine = some i →
      (ds.drop i).filterMap classifyLine = [] →
      (apply_unified_diff root st filename ds).2 = .ok
        ∧ lookupA (pathStr (resolveComponents root filename))
            (apply_unified_diff root st filename ds).1.files = some [])
    ∧ (ds.findIdx? isHunkLine = none → ds.filterMap classifyLine = [] →
        apply_unified_diff root st filename ds = (st, .errParse)) := by
  constructor
  · intro i hidx hempty
    have hstrip : ¬ ((ds.isEmpty || ds.all strippedEmpty) = true) := by
      have h1 := all_stripped_false_of_findIdx ds 0 i hidx
      cases ds with
      | nil => simp [List.findIdx?] at hidx
      | cons l rest => simp [h1]
    have hpatch : ∀ old, _patch old ds = some [] := by
      intro old
      simp only [_patch, if_neg hstrip, hidx, hempty]
    cases hlk : lookupA (pathStr (resolveComponents root filename))
        st.files with
    | none =>
      constructor
      · simp [apply_unified_diff, hjail, hlk, hpatch]
      · simp [apply_unified_diff, hjail, hlk, hpatch, lookupA_setA]
    | some c =>
      constructor
      · simp [apply_unified_diff, hjail, hlk, hpatch]
      · simp [apply_unified_diff, hjail, hlk, hpatch, lookupA_setA]
  · intro hidx hempty
    have hpatch : ∀ old, _patch old ds = none := by
      intro old
      by_cases hstrip : (ds.isEmpty || ds.all strippedEmpty) = true
      · simp [_patch, hstrip]
      · simp only [_patch, if_neg hstrip, hidx, hempty]
        rfl
    cases hlk : lookupA (pathStr (resolveComponents root filename))
        st.files with
    | none => simp [apply_unified_diff, hjail, hlk, hpatch]
    | some c => simp [apply_unified_diff, hjail, hlk, hpatch]

/-- C10 (witness): over an empty project with root `/proj`, the diff
`"@@ -1,1 +1,0 @@\n-old\n"` (all-deletion hunk) succeeds and writes an
empty `x`, while the hunkless all-deletion diff `"-old\n"` is rejected
as a parse failure with the state unchanged. -/
theorem claim10_witness :
    ((apply_unified_diff ["proj".toList] ⟨[], []⟩ ["x".toList]
        ["@@ -1,1 +1,0 @@\n".toList, "-old\n".toList]).2 = .ok
      ∧ lookupA "/proj/x".toList
          (apply_unified_diff ["proj".toList] ⟨[], []⟩ ["x".toList]
            ["@@ -1,1 +1,0 @@\n".toList, "-old\n".toList]).1.files
          = some [])
    ∧ apply_unified_diff ["proj".toList] ⟨[], []⟩ ["x".toList]
        ["-old\n".toList] = (⟨[], []⟩, .errParse) :=
  ⟨(claim10_empty_reconstruction ["proj".toList] ⟨[], []⟩ ["x".toList]
      ["@@ -1,1 +1,0 @@\n".toList, "-old\n".toList] (by decide)).1
      0 (by decide) (by decide),
    (claim10_empty_reconstruction ["proj".toList] ⟨[], []⟩ ["x".toList]
      ["-old\n".toList] (by decide)).2 (by decide) (by decide)⟩

/-! ## Shell sessions (`src/agent/tools/terminal.py`)

A `ShellSession` owns one subprocess (identified here by a spawn-ordered
pid) and a `queue.Queue` of output lines filled by the `_pump`
background reader in the process's emission order.  `TerminalTool` owns
the session table.  `_pump` runs concurrently with callers, but the
queue is FIFO: an emission step (`pumpEmit`) appends the lines the
process produced, and `read` is a snapshot drain of at most `maxLines`
queued lines.  An external process exit runs no `TerminalTool` code at
all — the daemon reader just reaches EOF and stops — so it is modelled
as an event (`procExit`) that marks the pid dead and leaves the session
table untouched. -/

/-- One shell session: the subprocess handle (a spawn-ordered pid) and
its queued output lines, in emission order. -/
structure Sess where
  pid : Nat
  buffer : List (List Char)
deriving DecidableEq

/-- The session world: the manager's table, the spawn counter, and the
pids whose processes have exited. -/
structure TermWorld where
  sessions : List (List Char × Sess)
  nextPid : Nat
  deadPids : List Nat
deriving DecidableEq

/-- The manager right after construction: no sessions. -/
def initWorld : TermWorld := ⟨[], 0, []⟩

/-- `ShellSession.__init__`: spawn one fresh subprocess with an empty
queue and start its reader thread. -/
def spawnSession (w : TermWorld) : Sess × TermWorld :=
  (⟨w.nextPid, []⟩, { w with nextPid := w.nextPid + 1 })

/-- In-place mutation of the first session object bound to `k` (the
dict itself is not reassigned). -/
def updateA (k : List Char) (f : Sess → Sess) :
    List (List Char × Sess) → List (List Char × Sess)
  | [] => []
  | (k', v) :: rest =>
      if k = k' then (k', f v) :: rest else (k', v) :: updateA k f rest

/-- `TerminalTool.open(session_id)`: refuse when the config disables the
shell; answer `{"ok": True, "existing": True}` for an already-open id
*without spawning*; otherwise spawn a fresh session. -/
def term_open (allowShell : Bool) (w : TermWorld) (id : List Char) :
    Except Unit (TermWorld × Bool) :=
  if allowShell then
    match lookupA id w.sessions with
    | some _ => .ok (w, true)
    | none =>
      let (s, w') := spawnSession w
      .ok ({ w' with sessions := (id, s) :: w'.sessions }, false)
  else .error ()

/-- `TerminalTool.exec(session_id, command)`: transparently create a
fresh session for an unknown (or closed-and-forgotten) id, then `send`
the command to the process's stdin — which by itself changes no
buffer. -/
def term_exec (w : TermWorld) (id _cmd : List Char) : TermWorld :=
  match lookupA id w.sessions with
  | some _ => w
  | none =>
    let (s, w') := spawnSession w
    { w' with sessions := (id, s) :: w'.sessions }

/-- `ShellSession._pump` delivering lines the process emitted: appended
to the session's queue in emission order. -/
def pumpEmit (w : TermWorld) (id : List Char) (ls : List (List Char)) :
    TermWorld :=
  { w with sessions :=
      updateA id (fun s => { s with buffer := s.buffer ++ ls }) w.sessions }

/-- `ShellSession.read(max_lines)`: non-blocking snapshot drain of at
most `maxLines` currently queued lines, concatenated; the remainder
stays queued. -/
def sessionRead (maxLines : Nat) (s : Sess) : List Char × Sess :=
  ((s.buffer.take maxLines).flatten,
    { s with buffer := s.buffer.drop maxLines })

/-- `TerminalTool.read(session_id)`: `{"output": ""}` for an unknown id,
else the session's drain. -/
def term_read (w : TermWorld) (id : List Char) (maxLines : Nat) :
    List Char × TermWorld :=
  match lookupA id w.sessions with
  | none => ([], w)
  | some s =>
    ((sessionRead maxLines s).1,
      { w with sessions :=
          updateA id (fun s0 => (sessionRead maxLines s0).2) w.sessions })

/-- `TerminalTool.close(session_id)`: pop the table entry and terminate
the process (if the id was open). -/
def term_close (w : TermWorld) (id : List Char) : TermWorld :=
  match lookupA id w.sessions with
  | none => { w with sessions := eraseA id w.sessions }
  | some s =>
    { w with
        sessions := eraseA id w.sessions
        deadPids := s.pid :: w.deadPids }

/-- An external process exit: the reader thread reaches EOF and stops;
no `TerminalTool` code runs, and the session table is untouched. -/
def procExit (w : TermWorld) (pid : Nat) : TermWorld :=
  { w with deadPids := pid :: w.deadPids }

/-- The events the session world can undergo. -/
inductive TermOp where
  | openS (id : List Char)
  | execS (id cmd : List Char)
  | emit (id : List Char) (ls : List (List Char))
  | readS (id : List Char) (n : Nat)
  | closeS (id : List Char)
  | exitP (pid : Nat)
deriving DecidableEq

/-- One step of the session world. -/
def termStep (allowShell : Bool) (w : TermWorld) : TermOp → TermWorld
  | .openS id =>
    match term_open allowShell w id with
    | .ok (w', _) => w'
    | .error _ => w
  | .execS id cmd => term_exec w id cmd
  | .emit id ls => pumpEmit w id ls
  | .readS id n => (term_read w id n).2
  | .closeS id => term_close w id
  | .exitP pid => procExit w pid

/-- Run a sequence of events from the fresh manager. -/
def termRun (allowShell : Bool) (ops : List TermOp) : TermWorld :=
  ops.foldl (termStep allowShell) initWorld

/-- The manager invariant: session ids are distinct, each open id owns
its own live subprocess handle (pids are pairwise distinct), and all
spawned pids are below the spawn counter. -/
def WorldInv (w : TermWorld) : Prop :=
  (w.sessions.map Prod.fst).Nodup
    ∧ (w.sessions.map (fun p => p.2.pid)).Nodup
    ∧ ∀ q ∈ w.sessions.map (fun p => p.2.pid), q < w.nextPid

theorem lookupA_updateA_self (k : List Char) (f : Sess → Sess) :
    ∀ m : List (List Char × Sess),
      lookupA k (updateA k f m) = (lookupA k m).map f := by
  intro m
  induction m with
  | nil => rfl
  | cons p rest ih =>
    obtain ⟨k', v⟩ := p
    by_cases hk : k = k'
    · simp [updateA, hk, lookupA]
    · simp [updateA, hk, lookupA, ih]

theorem lookupA_updateA_ne (k k' : List Char) (f : Sess → Sess)
    (h : k' ≠ k) :
    ∀ m : List (List Char × Sess),
      lookupA k' (updateA k f m) = lookupA k' m := by
  intro m
  induction m with
  | nil => rfl
  | cons p rest ih =>
    obtain ⟨k0, v⟩ := p
    by_cases hk : k = k0
    · subst hk
      simp [updateA, lookupA, h, ih]
    · by_cases hk' : k' = k0
      · simp [updateA, hk, lookupA, hk']
      · simp [updateA, hk, lookupA, hk', ih]

theorem map_fst_updateA (k : List Char) (f : Sess → Sess) :
    ∀ m : List (List Char × Sess),
      (updateA k f m).map Prod.fst = m.map Prod.fst := by
  intro m
  induction m with
  | nil => rfl
  | cons p rest ih =>
    obtain ⟨k', v⟩ := p
    by_cases hk : k = k'
    · simp [updateA, hk]
    · simp [updateA, hk, ih]

theorem map_pid_updateA (k : List Char) (f : Sess → Sess)
    (hf : ∀ s, (f s).pid = s.pid) :
    ∀ m : List (List Char × Sess),
      (updateA k f m).map (fun p => p.2.pid)
        = m.map (fun p => p.2.pid) := by
  intro m
  induction m with
  | nil => rfl
  | cons p rest ih =>
    obtain ⟨k', v⟩ := p
    by_cases hk : k = k'
    · simp [updateA, hk, hf]
    · simp [updateA, hk, ih]

theorem not_mem_map_fst_of_lookupA_none {k : List Char}
    {m : List (List Char × Sess)} (h : lookupA k m = none) :
    k ∉ m.map Prod.fst := by
  induction m with
  | nil => simp
  | cons p rest ih =>
    obtain ⟨k', v⟩ := p
    by_cases hk : k = k'
    · simp [lookupA, hk] at h
    · simp only [lookupA, if_neg hk] at h
      simp [List.mem_cons, hk, ih h]

theorem lookupA_eraseA_self (k : List Char)
    (m : List (List Char × Sess)) : lookupA k (eraseA k m) = none :=
  lookupA_filter k _ (fun v => by simp) m

theorem lookupA_eraseA_ne {α : Type} (k k' : List Char) (h : k' ≠ k) :
    ∀ m : List (List Char × α), lookupA k' (eraseA k m) = lookupA k' m := by
  intro m
  induction m with
  | nil => rfl
  | cons p rest ih =>
    obtain ⟨k0, v⟩ := p
    by_cases hk : k0 = k
    · have hk'0 : k' ≠ k0 := fun hc => h (hc.trans hk)
      have h1 : eraseA k ((k0, v) :: rest) = eraseA k rest := by
        simp [eraseA, List.filter_cons, hk]
      have h2 : lookupA k' ((k0, v) :: rest) = lookupA k' rest := by
        simp [lookupA, hk'0]
      rw [h1, h2, ih]
    · have h1 : eraseA k ((k0, v) :: rest) = (k0, v) :: eraseA k rest := by
        simp [eraseA, List.filter_cons, hk]
      rw [h1]
      by_cases hk' : k' = k0
      · simp [lookupA, hk']
      · simp [lookupA, hk', ih]

theorem worldInv_init : WorldInv initWorld := by
  refine ⟨List.nodup_nil, List.nodup_nil, ?_⟩
  intro q hq
  simp [initWorld] at hq

theorem worldInv_spawn (w : TermWorld) (id : List Char)
    (hlk : lookupA id w.sessions = none) (h : WorldInv w) :
    WorldInv ⟨(id, ⟨w.nextPid, []⟩) :: w.sessions, w.nextPid + 1,
      w.deadPids⟩ := by
  obtain ⟨hids, hpids, hbound⟩ := h
  refine ⟨?_, ?_, ?_⟩
  · simp only [List.map_cons]
    exact List.nodup_cons.mpr ⟨not_mem_map_fst_of_lookupA_none hlk, hids⟩
  · simp only [List.map_cons]
    refine List.nodup_cons.mpr ⟨?_, hpids⟩
    intro hmem
    exact absurd (hbound _ hmem) (lt_irrefl _)
  · intro q hq
    simp only [List.map_cons, List.mem_cons] at hq
    rcases hq with rfl | hq
    · exact Nat.lt_succ_self _
    · exact Nat.lt_succ_of_lt (hbound q hq)

theorem worldInv_updateA (w : TermWorld) (id : List Char) (f : Sess → Sess)
    (hf : ∀ s, (f s).pid = s.pid) (h : WorldInv w) :
    WorldInv ⟨updateA id f w.sessions, w.nextPid, w.deadPids⟩ := by
  obtain ⟨hids, hpids, hbound⟩ := h
  refine ⟨?_, ?_, ?_⟩
  · rw [show (⟨updateA id f w.sessions, w.nextPid, w.deadPids⟩
        : TermWorld).sessions = updateA id f w.sessions from rfl,
      map_fst_updateA]
    exact hids
  · rw [show (⟨updateA id f w.sessions, w.nextPid, w.deadPids⟩
        : TermWorld).sessions = updateA id f w.sessions from rfl,
      map_pid_updateA id f hf]
    exact hpids
  · intro q hq
    rw [show (⟨updateA id f w.sessions, w.nextPid, w.deadPids⟩
        : TermWorld).sessions = updateA id f w.sessions from rfl,
      map_pid_updateA id f hf] at hq
    exact hbound q hq

theorem worldInv_erase (w : TermWorld) (id : List Char)
    (nxt : Nat) (dead : List Nat) (hn : nxt = w.nextPid)
    (h : WorldInv w) :
    WorldInv ⟨eraseA id w.sessions, nxt, dead⟩ := by
  obtain ⟨hids, hpids, hbound⟩ := h
  have hsubf : ((eraseA id w.sessions).map Prod.fst).Sublist
      (w.sessions.map Prod.fst) :=
    List.Sublist.map Prod.fst (List.filter_sublist w.sessions)
  have hsub : ((eraseA id w.sessions).map (fun p => p.2.pid)).Sublist
      (w.sessions.map (fun p => p.2.pid)) :=
    List.Sublist.map _ (List.filter_sublist w.sessions)
  subst hn
  exact ⟨List.Nodup.sublist hsubf hids, List.Nodup.sublist hsub hpids,
    fun q hq => hbound q (hsub.subset hq)⟩

theorem worldInv_step (allowShell : Bool) (w : TermWorld) (op : TermOp)
    (h : WorldInv w) : WorldInv (termStep allowShell w op) := by
  cases op with
  | openS id =>
    show WorldInv
      (match term_open allowShell w id with
        | .ok (w', _) => w'
        | .error _ => w)
    cases allowShell with
    | false => exact h
    | true =>
      cases hlk : lookupA id w.sessions with
      | some s => simp only [term_open, if_pos rfl, hlk]; exact h
      | none =>
        simp only [term_open, if_pos rfl, hlk, spawnSession]
        exact worldInv_spawn w id hlk h
  | execS id cmd =>
    show WorldInv (term_exec w id cmd)
    cases hlk : lookupA id w.sessions with
    | some s => simp only [term_exec, hlk]; exact h
    | none =>
      simp only [term_exec, hlk, spawnSession]
      exact worldInv_spawn w id hlk h
  | emit id ls =>
    exact worldInv_updateA w id _ (fun s => rfl) h
  | readS id n =>
    show WorldInv (term_read w id n).2
    cases hlk : lookupA id w.sessions with
    | none => simp only [term_read, hlk]; exact h
    | some s =>
      simp only [term_read, hlk]
      exact worldInv_updateA w id _ (fun s => rfl) h
  | closeS id =>
    show WorldInv (term_close w id)
    cases hlk : lookupA id w.sessions with
    | none =>
      simp only [term_close, hlk]
      exact worldInv_erase w id _ _ rfl h
    | some s =>
      simp only [term_close, hlk]
      exact worldInv_erase w id _ _ rfl h
  | exitP pid => exact h

/-- C6: `read(maxLines)` is a pure snapshot drain — it returns exactly
the first `min(maxLines, queued)` buffered lines concatenated (so the
empty string when nothing is buffered) and leaves the rest queued, in
order; and after two commands whose outputs were pumped in emission
order, one sufficiently large `read` returns the two outputs
concatenated in that order. -/
theorem claim6_read_order (w : TermWorld) (id : List Char) (s : Sess)
    (l1 l2 : List (List Char)) (n : Nat)
    (hs : lookupA id w.sessions = some s)
    (hn : l1.length + l2.length ≤ n) :
    (term_read w id n).1 = (s.buffer.take n).flatten
    ∧ lookupA id (term_read w id n).2.sessions
        = some ⟨s.pid, s.buffer.drop n⟩
    ∧ (s.buffer = [] → (term_read w id n).1 = [])
    ∧ (s.buffer = [] →
        (term_read (pumpEmit (pumpEmit w id l1) id l2) id n).1
          = l1.flatten ++ l2.flatten) := by
  refine ⟨?_, ?_, ?_, ?_⟩
  · simp [term_read, hs, sessionRead]
  · simp [term_read, hs, lookupA_updateA_self, sessionRead]
  · intro hbuf
    simp [term_read, hs, sessionRead, hbuf]
  · intro hbuf
    have h1 : lookupA id (pumpEmit w id l1).sessions
        = some ⟨s.pid, s.buffer ++ l1⟩ := by
      rw [show (pumpEmit w id l1).sessions
          = updateA id (fun s0 => { s0 with buffer := s0.buffer ++ l1 })
              w.sessions from rfl,
        lookupA_updateA_self, hs]
      rfl
    have h2 : lookupA id (pumpEmit (pumpEmit w id l1) id l2).sessions
        = some ⟨s.pid, (s.buffer ++ l1) ++ l2⟩ := by
      rw [show (pumpEmit (pumpEmit w id l1) id l2).sessions
          = updateA id (fun s0 => { s0 with buffer := s0.buffer ++ l2 })
              (pumpEmit w id l1).sessions from rfl,
        lookupA_updateA_self, h1]
      rfl
    rw [hbuf, List.nil_append] at h2
    have htake : (l1 ++ l2).take n = l1 ++ l2 :=
      List.take_of_length_le (by rw [List.length_append]; omega)
    simp [term_read, h2, sessionRead, htake]

/-- C6 (witness): a fresh session receives `"hi\n"` then `"bye\n"` from
two commands; one read of up to 400 lines returns `"hi\nbye\n"`. -/
theorem claim6_witness :
    (term_read (pumpEmit (pumpEmit
          (term_exec initWorld "s1".toList "echo hi".toList)
          "s1".toList ["hi\n".toList])
        "s1".toList ["bye\n".toList])
      "s1".toList 400).1 = "hi\nbye\n".toList :=
  (((claim6_read_order
      (term_exec initWorld "s1".toList "echo hi".toList)
      "s1".toList ⟨0, []⟩ ["hi\n".toList] ["bye\n".toList] 400
      (by rfl) (by decide)).2.2.2 rfl).trans (by decide))

/-- C7: `exec` on an id that is unknown to the manager — as any
previously closed id is, since `close` pops the table entry —
transparently opens a fresh session whose buffer is empty (the prior
history is gone), and `read` on an unknown or closed id returns empty
output with the world unchanged. -/
theorem claim7_fresh_after_close (w : TermWorld) (id cmd : List Char)
    (n : Nat) (h : lookupA id w.sessions = none) :
    term_read w id n = ([], w)
    ∧ lookupA id (term_exec w id cmd).sessions = some ⟨w.nextPid, []⟩
    ∧ (∀ w2 : TermWorld, lookupA id (term_close w2 id).sessions = none) := by
  refine ⟨?_, ?_, ?_⟩
  · simp [term_read, h]
  · simp [term_exec, h, spawnSession, lookupA]
  · intro w2
    cases hlk : lookupA id w2.sessions with
    | none => simp only [term_close, hlk]; exact lookupA_eraseA_self id _
    | some s => simp only [term_close, hlk]; exact lookupA_eraseA_self id _

/-- C7 (witness): `exec` on the fresh manager creates session `s1` with
pid 0 and an empty buffer. -/
theorem claim7_witness :
    lookupA "s1".toList
        (term_exec initWorld "s1".toList "echo hi".toList).sessions
      = some ⟨0, []⟩ :=
  (claim7_fresh_after_close initWorld "s1".toList "echo hi".toList 400
    rfl).2.1

/-- C8 (counterexample): open `s1` (spawning pid 0), then let its
process exit.  No `TerminalTool` code runs on process exit, so the
session — supposedly destroyed — is still in the manager with its
buffer, refuting destruction on external process exit. -/
theorem claim8_counterexample :
    (termRun true [TermOp.openS "s1".toList, TermOp.exitP 0]).sessions
        = [("s1".toList, ⟨0, []⟩)]
      ∧ 0 ∈ (termRun true [TermOp.openS "s1".toList,
          TermOp.exitP 0]).deadPids := by
  constructor
  · rfl
  · decide

/-- C8 (amended): in every reachable manager state the session ids are
distinct and each open id owns exactly one live subprocess handle
(pids pairwise distinct and below the spawn counter); `open` on an
already-open id reports success with `existing=True` without spawning or
changing anything; a session *is* removed by explicit `close`; but no
event other than `close` of that very id — in particular not an external
process exit — removes it: the entry and its buffer remain in the
manager. -/
theorem claim8_one_process_per_id (allowShell : Bool) :
    (∀ ops : List TermOp, WorldInv (termRun allowShell ops))
    ∧ (∀ (w : TermWorld) (id : List Char) (s : Sess),
        lookupA id w.sessions = some s →
          term_open true w id = .ok (w, true))
    ∧ (∀ (w : TermWorld) (id : List Char),
        lookupA id (term_close w id).sessions = none)
    ∧ (∀ (w : TermWorld) (id : List Char) (op : TermOp),
        (lookupA id w.sessions).isSome = true → op ≠ .closeS id →
          (lookupA id (termStep allowShell w op).sessions).isSome
            = true) := by
  refine ⟨?_, ?_, ?_, ?_⟩
  · intro ops
    suffices hgen : ∀ w : TermWorld, WorldInv w →
        WorldInv (ops.foldl (termStep allowShell) w) by
      exact hgen initWorld worldInv_init
    induction ops with
    | nil => intro w hw; exact hw
    | cons op rest ih =>
      intro w hw
      exact ih (termStep allowShell w op) (worldInv_step allowShell w op hw)
  · intro w id s hs
    simp [term_open, hs]
  · intro w id
    cases hlk : lookupA id w.sessions with
    | none => simp only [term_close, hlk]; exact lookupA_eraseA_self id _
    | some s => simp only [term_close, hlk]; exact lookupA_eraseA_self id _
  · intro w id op hsome hne
    obtain ⟨s, hs⟩ : ∃ s, lookupA id w.sessions = some s := by
      cases hlk : lookupA id w.sessions with
      | none => rw [hlk] at hsome; simp at hsome
      | some s => exact ⟨s, rfl⟩
    cases op with
    | openS id' =>
      show (lookupA id
        (match term_open allowShell w id' with
          | .ok (w', _) => w'
          | .error _ => w).sessions).isSome = true
      cases allowShell with
      | false => simp [term_open, hs]
      | true =>
        cases hlk : lookupA id' w.sessions with
        | some s' => simp [term_open, hlk, hs]
        | none =>
          have hne' : id ≠ id' := fun hc => by
            rw [hc, hlk] at hs; cases hs
          simp [term_open, hlk, spawnSession, lookupA, hne', hs]
    | execS id' cmd =>
      show (lookupA id (term_exec w id' cmd).sessions).isSome = true
      cases hlk : lookupA id' w.sessions with
      | some s' => simp [term_exec, hlk, hs]
      | none =>
        have hne' : id ≠ id' := fun hc => by
          rw [hc, hlk] at hs; cases hs
        simp [term_exec, hlk, spawnSession, lookupA, hne', hs]
    | emit id' ls =>
      show (lookupA id (pumpEmit w id' ls).sessions).isSome = true
      by_cases hid : id = id'
      · subst hid
        simp [pumpEmit, lookupA_updateA_self, hs]
      · simp [pumpEmit, lookupA_updateA_ne id' id _ hid, hs]
    | readS id' n =>
      show (lookupA id (term_read w id' n).2.sessions).isSome = true
      cases hlk : lookupA id' w.sessions with
      | none => simp [term_read, hlk, hs]
      | some s' =>
        by_cases hid : id = id'
        · subst hid
          simp [term_read, hlk, lookupA_updateA_self, hs]
        · simp [term_read, hlk, lookupA_updateA_ne id' id _ hid, hs]
    | closeS id' =>
      show (lookupA id (term_close w id').sessions).isSome = true
      have hne' : id ≠ id' := fun hc => hne (by rw [hc])
      cases hlk : lookupA id' w.sessions with
      | none =>
        simp only [term_close, hlk]
        rw [lookupA_eraseA_ne id' id hne']
        simp [hs]
      | some s' =>
        simp only [term_close, hlk]
        rw [lookupA_eraseA_ne id' id hne']
        simp [hs]
    | exitP pid =>
      show (lookupA id (procExit w pid).sessions).isSome = true
      simp [procExit, hs]

/-- C8 (witness for the amended theorem): after opening `s1`, the event
`exitP 0` (its process exits) leaves `s1` present in the manager. -/
theorem claim8_witness :
    (lookupA "s1".toList
      (termStep true (termRun true [TermOp.openS "s1".toList])
        (TermOp.exitP 0)).sessions).isSome = true :=
  (claim8_one_process_per_id true).2.2.2
    (termRun true [TermOp.openS "s1".toList]) "s1".toList
    (TermOp.exitP 0) (by rfl) (by decide)

end VeCode
